import Mathlib

/-!
# ai-safe-ops terminal dashboard: the event loop of `cli/main.go`

A shallow embedding of the Bubble Tea model of `cli/main.go` (`mainMenuModel`, its
`Update` dispatcher, `updateMenus`, `updateDirectoryInput`, `loadWorkflows`,
`waitForExit`) together with the Go standard-library string and path helpers the
code calls, followed by the properties of the status-line protocol, the navigation
state machine and the result resolution.

Conventions.

* A Go `string` / `[]byte` is a list of characters (`Str`). The code compares whole
  strings and looks for ASCII characters only (`,`, `.`, `/`, the three prefixes),
  which behaves the same on the characters and on the bytes of UTF-8 text.
* A Go `error` is `Option GoError`, `none` being `nil`.
* A Go `int` is an `Int`, and `wrapInt` gives the 64-bit value of a sum or difference
  that can overflow. The arithmetic on the cursor is guarded by the bounds of the
  list and cannot overflow.
* A call that ends in a run-time panic (index out of range, nil dereference) makes
  the enclosing function return `none`.
* The collaborators that live outside the repository (file system, child process,
  the bubbles widgets, the glamour renderer) are the fields of `Env`; every theorem
  is stated for an arbitrary `Env`.
* In `return m, doScan(&m)` and `return m, m.textInput.Focus()` the call may change
  a field of `m`, and Go leaves open whether the returned copy of `m` is taken
  before or after the call. The returned model carries the field as the
  collaborator reports it, which covers both orders.
-/

namespace AiSafeOps

/-! ## Go strings and the `strings` / `path/filepath` helpers used by the code -/

/-- A Go string, as the sequence of its characters. -/
abbrev Str := List Char

/-- Go `strings.HasPrefix`. -/
def HasPrefix (s pre : Str) : Bool := pre.isPrefixOf s

/-- Go `strings.HasSuffix`. -/
def HasSuffix (s suf : Str) : Bool := suf.isSuffixOf s

/-- Go `strings.TrimPrefix`: `s` without the leading `pre` when it has it, else `s`. -/
def TrimPrefix (s pre : Str) : Str :=
  if HasPrefix s pre then s.drop pre.length else s

/-- Go `strings.TrimSuffix`: `s` without the trailing `suf` when it has it, else `s`. -/
def TrimSuffix (s suf : Str) : Str :=
  if HasSuffix s suf then s.take (s.length - suf.length) else s

/-- Go `strings.Split(s, sep)` for a one-character separator: the pieces of `s`
between the occurrences of `sep`; `n` separators give `n + 1` pieces and the empty
string gives one empty piece. -/
def Split (sep : Char) : Str → List Str
  | [] => [[]]
  | c :: cs =>
    if c = sep then [] :: Split sep cs
    else
      match Split sep cs with
      | [] => [[c]]
      | h :: t => (c :: h) :: t

/-- Go `strings.ReplaceAll(s, "\r\n", "\n")`: every carriage return followed by a
line feed becomes a line feed, from left to right. -/
def ReplaceCRLF : Str → Str
  | [] => []
  | [c] => [c]
  | c :: d :: rest =>
    if c = '\r' ∧ d = '\n' then '\n' :: ReplaceCRLF rest
    else c :: ReplaceCRLF (d :: rest)

/-- The value a Go `int` (64 bits, two's complement) holds for the mathematical
result `x` of an addition or subtraction. -/
def wrapInt (x : Int) : Int := (x + 2 ^ 63) % 2 ^ 64 - 2 ^ 63

/-- The backwards scan of Go `filepath.Ext` over the reversed path: `acc` holds the
characters already passed, in path order. -/
def extScan : Str → Str → Str
  | [], _ => []
  | c :: cs, acc =>
    if c = '/' then []
    else if c = '.' then '.' :: acc
    else extScan cs (c :: acc)

/-- Go `filepath.Ext` (Unix): the suffix starting at the last dot of the last path
element, empty when that element has no dot. -/
def Ext (path : Str) : Str := extScan path.reverse []

/-- One path element processed by Go `filepath.Clean` (Unix). The stack holds the
elements kept so far, the most recent first. -/
def cleanStep (rooted : Bool) (stack : List Str) (el : Str) : List Str :=
  if el = [] ∨ el = ['.'] then stack
  else if el = ['.', '.'] then
    match stack with
    | top :: rest => if top = ['.', '.'] then el :: stack else rest
    | [] => if rooted then [] else [el]
  else el :: stack

/-- The text of a cleaned path from its kept elements (most recent first). -/
def cleanRender (rooted : Bool) : List Str → Str
  | [] => if rooted then ['/'] else ['.']
  | [el] => if rooted then '/' :: el else el
  | el :: rest => cleanRender rooted rest ++ '/' :: el

/-- Go `filepath.Clean` (Unix). -/
def Clean (path : Str) : Str :=
  if path = [] then ['.']
  else
    let rooted := HasPrefix path ['/']
    cleanRender rooted ((Split '/' path).foldl (cleanStep rooted) [])

/-- Go `filepath.Join` (Unix): the elements from the first non-empty one on, joined
with slashes and cleaned; the empty string when every element is empty. -/
def Join : List Str → Str
  | [] => []
  | e :: rest =>
    if e = [] then Join rest
    else Clean (List.intercalate ['/'] (e :: rest))

/-! ## Errors and messages -/

/-- A Go `error` value: one built by `fmt.Errorf` from its text, or one handed over
by the operating system or a library (told apart by `id`). -/
inductive GoError
  | errorf (msg : Str)
  | external (id : Nat) (msg : Str)
  deriving DecidableEq, Repr

/-- The `Error()` text of an error. -/
def GoError.Error : GoError → Str
  | .errorf msg => msg
  | .external _ msg => msg

/-- The screen of the application (`appState`). -/
inductive appState
  | stateMainMenu
  | stateWorkflowSelection
  | stateDirectorySelection
  | stateRunningWorkflow
  | stateResults
  deriving DecidableEq, Repr

/-- The status of a step (`stepStatus`). -/
inductive stepStatus
  | statusPending
  | statusRunning
  | statusDone
  | statusError
  deriving DecidableEq, Repr

/-- A named step of the running workflow. -/
structure workflowStep where
  name : Str
  status : stepStatus
  deriving DecidableEq, Repr

/-- A key press: the text of its `String()` and the rest of the event, which only
the widgets look at. -/
structure KeyMsg where
  name : Str
  raw : Nat
  deriving DecidableEq, Repr

/-- The messages `Update` receives. `other` stands for every message type the type
switch has no case for. -/
inductive Msg
  | WindowSizeMsg (Width Height : Int)
  | KeyMsg (key : KeyMsg)
  | TickMsg (tick : Nat)
  | processOutputMsg (line : Str)
  | processFinishedMsg (err : Option GoError) (reportPath : Str)
  | other (tag : Nat)
  deriving DecidableEq, Repr

/-- A follow-up command (`tea.Cmd`): `nil`, `tea.Quit`, the request to read the next
output line from a scanner, or a command produced by a collaborator. -/
inductive Cmd
  | nil
  | Quit
  | streamOutput (scanner : Option Nat)
  | lib (id : Nat)
  deriving DecidableEq, Repr

/-- The second value returned by `Update`: one command, or `tea.Batch` of the
collected ones. -/
inductive CmdOut
  | one (cmd : Cmd)
  | Batch (cmds : List Cmd)
  deriving DecidableEq, Repr

/-! ## The model -/

/-- The `logging` section of the configuration. -/
structure LoggingConfig where
  EnableLocalFiles : Bool
  Directory : Str
  deriving DecidableEq, Repr

/-- The `opentelemetry` section of the configuration. -/
structure OpenTelemetryConfig where
  Enabled : Bool
  ExporterType : Str
  Endpoint : Str
  deriving DecidableEq, Repr

/-- The configuration document. -/
structure Config where
  Logging : LoggingConfig
  OpenTelemetry : OpenTelemetryConfig
  deriving DecidableEq, Repr

/-- A key binding: its keys and whether it is disabled. -/
structure Binding where
  keys : List Str
  disabled : Bool
  deriving DecidableEq, Repr

/-- The key map of the application. -/
structure keyMap where
  Up : Binding
  Down : Binding
  Quit : Binding
  deriving DecidableEq, Repr

/-- The package-level `keys` value. -/
def keys : keyMap :=
  { Up := { keys := ["k".toList, "up".toList], disabled := false }
    Down := { keys := ["j".toList, "down".toList], disabled := false }
    Quit := { keys := ["q".toList, "ctrl+c".toList], disabled := false } }

/-- The text input widget: the fields the code sets or reads, and the rest of its
state. -/
structure TextInput where
  Placeholder : Str
  Width : Int
  value : Str
  focus : Bool
  rest : Nat
  deriving DecidableEq, Repr

/-- The viewport widget of bubbles: its geometry, its scroll offset, the lines of its
content, and the rest of its state. -/
structure Viewport where
  Width : Int
  Height : Int
  YPosition : Int
  YOffset : Int
  lines : List Str
  rest : Nat
  deriving DecidableEq, Repr

/-- The widget `viewport.New(width, height)`. -/
def Viewport.New (width height : Int) : Viewport :=
  { Width := width, Height := height, YPosition := 0, YOffset := 0, lines := [], rest := 0 }

/-- The widget's `maxYOffset()` with the default style: `max(0, len(lines) - Height)`. -/
def Viewport.maxYOffset (v : Viewport) : Int :=
  max 0 (wrapInt ((v.lines.length : Int) - v.Height))

/-- The widget's `GotoBottom()`: the offset is set to `maxYOffset()`, which the clamp
of `SetYOffset` to `[0, maxYOffset()]` leaves as it is. -/
def Viewport.GotoBottom (v : Viewport) : Viewport :=
  { v with YOffset := min (max v.maxYOffset 0) v.maxYOffset }

/-- The call `viewport.SetContent(s)` of bubbles: the line endings are normalised, the
content is kept as the lines between the line feeds, and an offset past the last
line moves to the bottom. -/
def Viewport.SetContent (v : Viewport) (s : Str) : Viewport :=
  let v1 := { v with lines := Split '\n' (ReplaceCRLF s) }
  if v1.YOffset > (v1.lines.length : Int) - 1 then v1.GotoBottom else v1

/-- The text a viewport holds: its lines joined by line feeds. -/
def Viewport.content (v : Viewport) : Str := List.intercalate ['\n'] v.lines

/-- The application state (`mainMenuModel`). The spinner and the stdout scanner are
handles into their libraries. -/
structure mainMenuModel where
  config : Option Config
  choices : List Str
  cursor : Int
  state : appState
  workflow : Str
  codebase : Str
  spinner : Nat
  steps : List workflowStep
  err : Option GoError
  textInput : TextInput
  viewport : Viewport
  helpWidth : Int
  keys : keyMap
  ready : Bool
  stdoutScanner : Option Nat
  deriving DecidableEq, Repr

/-- An entry of the workflow directory. -/
structure DirEntry where
  Name : Str
  IsDir : Bool
  deriving DecidableEq, Repr

/-- The result of `renderer.Render`: the text and the error. -/
abbrev RenderResult := Str × Option GoError

/-- The collaborators outside the repository, as seen during one call of `Update`.

* `headerHeight`, `footerHeight`: `lipgloss.Height` of the header and footer views;
* `viewportUpdate`, `spinnerUpdate`, `textInputUpdate`: the `Update` functions of
  the widgets;
* `textInputFocus`: the call `m.textInput.Focus()`, giving the widget as the
  returned model holds it and the command;
* `readDir`: `os.ReadDir` of the workflow directory;
* `doScan`: the spawn of the child process by `doScan`, giving the scanner the
  returned model holds and the command it returns (`none`: it does not return);
* `readFile`: `os.ReadFile`;
* `newTermRenderer`: `glamour.NewTermRenderer` for a wrap width, giving the
  renderer (`none`: a nil pointer), as the function its `Render` computes, and
  the error;
* `nilRender`: what `Render` does on a nil renderer (`none`: it panics). -/
structure Env where
  headerHeight : mainMenuModel → Int
  footerHeight : mainMenuModel → Int
  viewportUpdate : Viewport → KeyMsg → Viewport × Cmd
  spinnerUpdate : Nat → Nat → Nat × Cmd
  textInputUpdate : TextInput → KeyMsg → TextInput × Cmd
  textInputFocus : TextInput → TextInput × Cmd
  readDir : Except GoError (List DirEntry)
  doScan : mainMenuModel → Option (Option Nat × Cmd)
  readFile : Str → Except GoError Str
  newTermRenderer : Int → Option (Str → RenderResult) × Option GoError
  nilRender : Str → Option RenderResult

/-- The model built by `initialMainMenuModel(cfg)`. -/
def initialMainMenuModel (cfg : Option Config) : mainMenuModel :=
  { config := cfg
    choices := ["Start Workflow".toList, "Settings".toList]
    cursor := 0
    state := .stateMainMenu
    workflow := []
    codebase := []
    spinner := 0
    steps := []
    err := none
    textInput :=
      { Placeholder := "/path/to/your/codebase".toList, Width := 60, value := [],
        focus := true, rest := 0 }
    viewport :=
      { Width := 0, Height := 0, YPosition := 0, YOffset := 0, lines := [], rest := 0 }
    helpWidth := 0
    keys := keys
    ready := false
    stdoutScanner := none }

/-! ## The operations -/

/-- The call `key.Matches(msg, b)`: the key is one of the keys of an enabled binding. -/
def Matches (msg : KeyMsg) (b : Binding) : Bool :=
  b.keys.any (fun v => decide (msg.name = v) && !b.disabled)

/-- The function `loadWorkflows`: the names of the `.json` files of the workflow
directory, or a one-entry list holding a message when the directory cannot be read
or has no such file. -/
def loadWorkflows (env : Env) : List Str :=
  match env.readDir with
  | .error e => ["Error: ".toList ++ e.Error]
  | .ok files =>
    let workflows :=
      files.foldl
        (fun acc file =>
          if !file.IsDir && HasSuffix file.Name ".json".toList then acc ++ [file.Name]
          else acc)
        []
    if workflows.length = 0 then ["No workflows found".toList] else workflows

/-- The index expression `xs[i]` of Go: `none` stands for the out-of-range panic. -/
def index (xs : List Str) (i : Int) : Option Str :=
  if 0 ≤ i then xs.get? i.toNat else none

/-- The method `updateMenus`. -/
def updateMenus (env : Env) (m : mainMenuModel) (msg : KeyMsg) :
    Option (mainMenuModel × CmdOut) :=
  if msg.name = "up".toList ∨ msg.name = "k".toList then
    some (if m.cursor > 0 then { m with cursor := m.cursor - 1 } else m, .one .nil)
  else if msg.name = "down".toList ∨ msg.name = "j".toList then
    some
      (if m.cursor < (m.choices.length : Int) - 1 then { m with cursor := m.cursor + 1 }
        else m,
        .one .nil)
  else if msg.name = "enter".toList then
    if m.state = .stateMainMenu then
      if m.cursor = 0 then
        some
          ({ m with
              state := .stateWorkflowSelection
              choices := loadWorkflows env
              cursor := 0 },
            .one .nil)
      else some (m, .one .nil)
    else
      match index m.choices m.cursor with
      | none => none
      | some choice =>
        let focused := env.textInputFocus m.textInput
        some
          ({ m with
              workflow := TrimSuffix choice (Ext choice)
              state := .stateDirectorySelection
              textInput := focused.1 },
            .one focused.2)
  else some (m, .one .nil)

/-- The method `updateDirectoryInput`. -/
def updateDirectoryInput (env : Env) (m : mainMenuModel) (msg : KeyMsg) :
    Option (mainMenuModel × CmdOut) :=
  if msg.name = "enter".toList then
    let m1 := { m with codebase := m.textInput.value }
    if m1.codebase ≠ [] then
      let m2 := { m1 with state := .stateRunningWorkflow }
      match env.doScan m2 with
      | none => none
      | some (scanner, cmd) => some ({ m2 with stdoutScanner := scanner }, .one cmd)
    else some (m1, .one .nil)
  else
    let updated := env.textInputUpdate m.textInput msg
    some ({ m with textInput := updated.1 }, .one updated.2)

/-- The loop of the `ALL_STEPS:` branch: one pending step appended per name. -/
def appendPending (names : List Str) : List workflowStep :=
  names.foldl (fun acc stepName => acc ++ [{ name := stepName, status := .statusPending }]) []

/-- The loop of the `STEP_START:` / `STEP_DONE:` branches: every step named
`stepName` gets the status `st`. -/
def markSteps (stepName : Str) (st : stepStatus) : List workflowStep → List workflowStep
  | [] => []
  | s :: rest =>
    (if s.name = stepName then { s with status := st } else s) :: markSteps stepName st rest

/-- The step list after the `processOutputMsg` case of `Update` handled `line`. -/
def processLine (steps : List workflowStep) (line : Str) : List workflowStep :=
  if HasPrefix line "ALL_STEPS:".toList then
    appendPending (Split ',' (TrimPrefix line "ALL_STEPS:".toList))
  else if HasPrefix line "STEP_START:".toList then
    markSteps (TrimPrefix line "STEP_START:".toList) .statusRunning steps
  else if HasPrefix line "STEP_DONE:".toList then
    markSteps (TrimPrefix line "STEP_DONE:".toList) .statusDone steps
  else steps

/-- The two glamour calls of the `processFinishedMsg` case: the renderer built for the
wrap width, both errors dropped, renders `content` (`none`: the call on a nil
renderer panics). -/
def renderReport (env : Env) (width : Int) (content : Str) : Option RenderResult :=
  match (env.newTermRenderer width).1 with
  | some render => some (render content)
  | none => env.nilRender content

/-- The method `Update`. -/
def Update (env : Env) (m : mainMenuModel) : Msg → Option (mainMenuModel × CmdOut)
  | .WindowSizeMsg Width Height =>
    let headerHeight := env.headerHeight m
    let footerHeight := env.footerHeight m
    let verticalMargin := wrapInt (headerHeight + footerHeight)
    if !m.ready then
      some
        ({ m with
            viewport := { Viewport.New Width (wrapInt (Height - verticalMargin)) with
              YPosition := headerHeight }
            helpWidth := Width
            ready := true },
          .Batch [])
    else
      some
        ({ m with
            viewport :=
              { m.viewport with Width := Width, Height := wrapInt (Height - verticalMargin) }
            helpWidth := Width },
          .Batch [])
  | .KeyMsg msg =>
    if Matches msg m.keys.Quit then some (m, .one .Quit)
    else
      match m.state with
      | .stateMainMenu => updateMenus env m msg
      | .stateWorkflowSelection => updateMenus env m msg
      | .stateDirectorySelection => updateDirectoryInput env m msg
      | .stateResults =>
        let updated := env.viewportUpdate m.viewport msg
        some ({ m with viewport := updated.1 }, .Batch [updated.2])
      | .stateRunningWorkflow => some (m, .Batch [])
  | .TickMsg tick =>
    if m.state = .stateRunningWorkflow then
      let updated := env.spinnerUpdate m.spinner tick
      some ({ m with spinner := updated.1 }, .Batch [updated.2])
    else some (m, .Batch [])
  | .processOutputMsg line =>
    some ({ m with steps := processLine m.steps line }, .Batch [.streamOutput m.stdoutScanner])
  | .processFinishedMsg err reportPath =>
    let m1 := { m with state := .stateResults, err := err }
    if err = none ∧ reportPath ≠ [] then
      match env.readFile reportPath with
      | .error e => some ({ m1 with err := some e }, .Batch [])
      | .ok content =>
        match renderReport env m1.viewport.Width content with
        | none => none
        | some (str, _) => some ({ m1 with viewport := m1.viewport.SetContent str }, .Batch [])
    else some (m1, .Batch [])
  | .other _ => some (m, .Batch [])

/-- The message produced by the command of `waitForExit(c, stderr, logDir)` once the
standard error has been read to `errOutput` and `c.Wait()` has returned `waitErr`. -/
def waitForExit (logDir errOutput : Str) (waitErr : Option GoError) : Msg :=
  let reportPath := Join [logDir, "report_file.txt".toList]
  match waitErr with
  | some err =>
    if errOutput.length > 0 then
      .processFinishedMsg (some (.errorf ("python script error:\n\n".toList ++ errOutput))) []
    else .processFinishedMsg (some err) []
  | none => .processFinishedMsg none reportPath

/-- The model after a sequence of output lines, each delivered to `Update` as a
`processOutputMsg`, in order. -/
def runLines (env : Env) : mainMenuModel → List Str → Option mainMenuModel
  | m, [] => some m
  | m, line :: rest =>
    match Update env m (.processOutputMsg line) with
    | none => none
    | some (m1, _) => runLines env m1 rest

/-- The models reachable from the initial model by messages through `Update`, the
collaborators being free to answer differently at every message. -/
inductive Reachable : mainMenuModel → Prop
  | init (cfg : Option Config) : Reachable (initialMainMenuModel cfg)
  | step {m m1 : mainMenuModel} (env : Env) (msg : Msg) (cmd : CmdOut) :
      Reachable m → Update env m msg = some (m1, cmd) → Reachable m1

/-! ## Definitions used by the statements -/

/-- A collaborator environment in which every widget is inert, the workflow directory
is empty, no file can be read and no child process starts. -/
def idleEnv : Env :=
  { headerHeight := fun _ => 2
    footerHeight := fun _ => 1
    viewportUpdate := fun v _ => (v, .nil)
    spinnerUpdate := fun s _ => (s, .nil)
    textInputUpdate := fun t _ => (t, .nil)
    textInputFocus := fun t => (t, .nil)
    readDir := .ok []
    doScan := fun _ => none
    readFile := fun _ => .error (.external 2 "no such file or directory".toList)
    newTermRenderer := fun _ => (some (fun s => (s, none)), none)
    nilRender := fun _ => none }

/-- What a `STEP_START:` / `STEP_DONE:` message may do to the step list: same length,
same names in the same order, status `st` exactly at the entries named `n`, the
previous status elsewhere, and nothing at all when no entry is named `n`. -/
def OnlyStatusOf (n : Str) (st : stepStatus) (old new : List workflowStep) : Prop :=
  new.length = old.length ∧
  new.map (fun s => s.name) = old.map (fun s => s.name) ∧
  (∀ (i : Nat) (s s1 : workflowStep), old[i]? = some s → new[i]? = some s1 →
    s1.status = if s.name = n then st else s.status) ∧
  ((∀ s ∈ old, s.name ≠ n) → new = old)

/-- The line `STEP_START:` followed by `n`. -/
def startLine (n : Str) : Str := "STEP_START:".toList ++ n

/-- The line `STEP_DONE:` followed by `n`. -/
def doneLine (n : Str) : Str := "STEP_DONE:".toList ++ n

/-- The condition of the specification for the status Done, in its words: a
`STEP_DONE` message naming `n` was processed after a `STEP_START` message naming
`n`. -/
def DoneAfterStart (lines : List Str) (n : Str) : Prop :=
  ∃ before after, lines = before ++ startLine n :: after ∧ doneLine n ∈ after

/-- The status the last message decides: among the lines that are the `STEP_START:`
or the `STEP_DONE:` message naming `n`, the last one gives Done when it is the
`STEP_DONE:` message and Running when it is the `STEP_START:` message; with no
such line the status is Pending. -/
def lastStatus (lines : List Str) (n : Str) : stepStatus :=
  match (lines.filter (fun l => decide (l = startLine n) || decide (l = doneLine n))).getLast? with
  | none => .statusPending
  | some l => if l = startLine n then .statusRunning else .statusDone

/-- The effect of one line without the `ALL_STEPS:` prefix on the status `st` of a step
named `n`. -/
def lineStatus (l n : Str) (st : stepStatus) : stepStatus :=
  if l = startLine n then .statusRunning
  else if l = doneLine n then .statusDone
  else st

/-- The cursor indexes an entry of the selection list. -/
def CursorInRange (m : mainMenuModel) : Prop :=
  0 ≤ m.cursor ∧ m.cursor ≤ (m.choices.length : Int) - 1

/-- A collaborator environment in which the report `logs/report_file.txt` holds
`# Report` and the renderer appends a line break to what it is given. -/
def reportEnv : Env :=
  { idleEnv with
    readFile := fun path =>
      if path = "logs/report_file.txt".toList then .ok "# Report".toList
      else .error (.external 2 "no such file or directory".toList)
    newTermRenderer := fun _ => (some (fun s => (s ++ ['\n'], none)), none) }

/-- As `reportEnv`, with a renderer whose `Render` fails: it returns the text `# Rep`
and an error. -/
def brokenRenderEnv : Env :=
  { reportEnv with
    newTermRenderer := fun _ =>
      (some (fun _ => ("# Rep".toList, some (.external 7 "render failed".toList))), none) }

/-- The model in the workflow selection that `loadWorkflows` fills when the catalog
has no workflow: the list holds the placeholder alone. -/
def emptyCatalogModel : mainMenuModel :=
  { initialMainMenuModel none with
    state := .stateWorkflowSelection
    choices := ["No workflows found".toList]
    cursor := 0 }

/-- A path element that `Clean` keeps as it comes from `Split`: not empty, not the dot,
and free of slashes. -/
def KeptElement (el : Str) : Prop := el ≠ [] ∧ el ≠ ['.'] ∧ '/' ∉ el

example : Split ',' "scan,analyze,report".toList
    = ["scan".toList, "analyze".toList, "report".toList] := by decide
example : Ext "audit.json".toList = ".json".toList := by decide
example : Ext "a.b/audit".toList = [] := by decide
example : Clean "/a/b/../c//d/.".toList = "/a/c/d".toList := by decide
example : Clean "../../a/..".toList = "../..".toList := by decide
example : Clean "/..".toList = "/".toList := by decide
example : Join ["/tmp/logs".toList, "report_file.txt".toList]
    = "/tmp/logs/report_file.txt".toList := by decide
example : Join [[], "report_file.txt".toList] = "report_file.txt".toList := by decide
example : ReplaceCRLF "a\r\nb\rc\n".toList = "a\nb\rc\n".toList := by decide
example : wrapInt (2 ^ 63) = -(2 ^ 63) := by decide
example : wrapInt (24 - 3) = 21 := by decide
example : (Viewport.New 80 2).SetContent "a\r\nb\nc".toList
    = { Width := 80, Height := 2, YPosition := 0, YOffset := 0,
        lines := ["a".toList, "b".toList, "c".toList], rest := 0 } := by decide
example : ({ Viewport.New 80 2 with YOffset := 7 }).SetContent "a\nb\nc".toList
    = { Width := 80, Height := 2, YPosition := 0, YOffset := 1,
        lines := ["a".toList, "b".toList, "c".toList], rest := 0 } := by decide

/-! ## Lemmas on the string helpers -/

theorem HasPrefix_append (pre p : Str) : HasPrefix (pre ++ p) pre = true := by
  unfold HasPrefix
  induction pre with
  | nil => simp [List.isPrefixOf]
  | cons c cs ih => simp [List.isPrefixOf, ih]

theorem TrimPrefix_append (pre p : Str) : TrimPrefix (pre ++ p) pre = p := by
  simp [TrimPrefix, HasPrefix_append]

theorem appendPending_acc (names : List Str) (acc : List workflowStep) :
    names.foldl (fun acc stepName => acc ++ [({ name := stepName, status := .statusPending } : workflowStep)]) acc
      = acc ++ names.map (fun n => { name := n, status := .statusPending }) := by
  induction names generalizing acc with
  | nil => simp
  | cons n ns ih => simp [ih]

theorem appendPending_eq_map (names : List Str) :
    appendPending names = names.map (fun n => { name := n, status := .statusPending }) := by
  simp [appendPending, appendPending_acc]

theorem Split_ne_nil (sep : Char) (s : Str) : Split sep s ≠ [] := by
  cases s with
  | nil => simp [Split]
  | cons c cs =>
    unfold Split
    split
    · simp
    · split <;> simp

theorem intercalate_Split (sep : Char) (s : Str) :
    List.intercalate [sep] (Split sep s) = s := by
  induction s with
  | nil => simp [Split, List.intercalate]
  | cons c cs ih =>
    unfold Split
    by_cases h : c = sep
    · subst h
      simp only [if_true]
      cases hs : Split c cs with
      | nil => exact absurd hs (Split_ne_nil _ _)
      | cons x xs =>
        rw [hs] at ih
        simp [List.intercalate] at ih ⊢
        exact ih
    · simp only [if_neg h]
      cases hs : Split sep cs with
      | nil => exact absurd hs (Split_ne_nil _ _)
      | cons x xs =>
        rw [hs] at ih
        cases xs with
        | nil => simp [List.intercalate] at ih ⊢; exact ih
        | cons y ys => simp [List.intercalate] at ih ⊢; exact ih

theorem Split_no_sep (sep : Char) (s : Str) : ∀ piece ∈ Split sep s, sep ∉ piece := by
  induction s with
  | nil => simp [Split]
  | cons c cs ih =>
    unfold Split
    by_cases h : c = sep
    · simp only [if_pos h]
      intro piece hp
      rcases List.mem_cons.1 hp with rfl | hp
      · simp
      · exact ih _ hp
    · simp only [if_neg h]
      cases hs : Split sep cs with
      | nil => exact absurd hs (Split_ne_nil _ _)
      | cons x xs =>
        rw [hs] at ih
        intro piece hp
        rcases List.mem_cons.1 hp with rfl | hp
        · have := ih x (by simp)
          simp [this, Ne.symm h]
        · exact ih _ (by simp [hp])

theorem Split_length (sep : Char) (s : Str) : (Split sep s).length = s.count sep + 1 := by
  induction s with
  | nil => simp [Split]
  | cons c cs ih =>
    unfold Split
    by_cases h : c = sep
    · subst h; simp [ih]
    · simp only [if_neg h]
      cases hs : Split sep cs with
      | nil => exact absurd hs (Split_ne_nil _ _)
      | cons x xs =>
        rw [hs] at ih
        simp [List.count_cons, h] at ih ⊢
        omega

/-! ## Lemmas on the status-line protocol -/

theorem markSteps_eq_map (n : Str) (st : stepStatus) (steps : List workflowStep) :
    markSteps n st steps
      = steps.map (fun s => if s.name = n then { s with status := st } else s) := by
  induction steps with
  | nil => rfl
  | cons s rest ih => simp [markSteps, ih]

theorem processLine_start (steps : List workflowStep) (n : Str) :
    processLine steps ("STEP_START:".toList ++ n) = markSteps n .statusRunning steps := by
  have h1 : HasPrefix ("STEP_START:".toList ++ n) "ALL_STEPS:".toList = false := by
    simp [HasPrefix, List.isPrefixOf]
  unfold processLine
  rw [h1, if_neg (by simp), if_pos (HasPrefix_append _ _), TrimPrefix_append]

theorem processLine_done (steps : List workflowStep) (n : Str) :
    processLine steps ("STEP_DONE:".toList ++ n) = markSteps n .statusDone steps := by
  have h1 : HasPrefix ("STEP_DONE:".toList ++ n) "ALL_STEPS:".toList = false := by
    simp [HasPrefix, List.isPrefixOf]
  have h2 : HasPrefix ("STEP_DONE:".toList ++ n) "STEP_START:".toList = false := by
    simp [HasPrefix, List.isPrefixOf]
  unfold processLine
  rw [h1, h2, if_neg (by simp), if_neg (by simp), if_pos (HasPrefix_append _ _),
    TrimPrefix_append]

theorem processLine_all (steps : List workflowStep) (p : Str) :
    processLine steps ("ALL_STEPS:".toList ++ p)
      = (Split ',' p).map (fun n => { name := n, status := .statusPending }) := by
  unfold processLine
  rw [if_pos (HasPrefix_append _ _), TrimPrefix_append, appendPending_eq_map]

theorem processLine_other (steps : List workflowStep) (line : Str)
    (h1 : HasPrefix line "ALL_STEPS:".toList = false)
    (h2 : HasPrefix line "STEP_START:".toList = false)
    (h3 : HasPrefix line "STEP_DONE:".toList = false) :
    processLine steps line = steps := by
  unfold processLine
  rw [h1, h2, h3]
  simp

theorem markSteps_onlyStatusOf (n : Str) (st : stepStatus) (steps : List workflowStep) :
    OnlyStatusOf n st steps (markSteps n st steps) := by
  rw [markSteps_eq_map]
  refine ⟨by simp, ?_, ?_, ?_⟩
  · rw [List.map_map]
    apply List.map_congr_left
    intro s _
    by_cases h : s.name = n <;> simp [h]
  · intro i s s1 h1 h2
    rw [List.getElem?_map, h1] at h2
    simp at h2
    subst h2
    by_cases h : s.name = n <;> simp [h]
  · intro h
    conv_rhs => rw [← List.map_id steps]
    apply List.map_congr_left
    intro s hs
    simp [h s hs]

theorem Update_processOutputMsg (env : Env) (m : mainMenuModel) (line : Str) :
    Update env m (.processOutputMsg line)
      = some ({ m with steps := processLine m.steps line },
          .Batch [.streamOutput m.stdoutScanner]) := rfl

/-! ## The status-line protocol -/

/-- C1. Handling the line `ALL_STEPS:` followed by `p`, from any model, returns, and the
new step list is one entry per comma-separated name of `p`, in the order of `p`
(the names joined by commas give back `p`, no name holds a comma, there is one
more entry than `p` has commas), every entry Pending; it does not depend on the
previous step list. -/
theorem all_steps_replaces_registry (env : Env) (m : mainMenuModel) (p : Str) :
    ∃ m1 cmd, Update env m (.processOutputMsg ("ALL_STEPS:".toList ++ p)) = some (m1, cmd) ∧
      m1.steps = (Split ',' p).map (fun n => { name := n, status := .statusPending }) ∧
      List.intercalate [','] (m1.steps.map (fun s => s.name)) = p ∧
      (∀ s ∈ m1.steps, ',' ∉ s.name ∧ s.status = .statusPending) ∧
      m1.steps.length = p.count ',' + 1 := by
  refine ⟨_, _, rfl, ?_, ?_, ?_, ?_⟩
  · exact processLine_all _ _
  · show List.intercalate [','] ((processLine m.steps _).map _) = p
    rw [processLine_all, List.map_map]
    have : ((fun s : workflowStep => s.name) ∘ fun n => { name := n, status := .statusPending })
        = id := rfl
    rw [this, List.map_id, intercalate_Split]
  · intro s hs
    change s ∈ processLine m.steps _ at hs
    rw [processLine_all] at hs
    obtain ⟨n, hn, rfl⟩ := List.mem_map.1 hs
    exact ⟨Split_no_sep _ _ n hn, rfl⟩
  · show (processLine m.steps _).length = _
    rw [processLine_all, List.length_map, Split_length]

/-- C2. Handling `STEP_START:` followed by `n` (respectively `STEP_DONE:` followed by
`n`), from any model, returns, and the new step list has the same length and the
same names in the same order, status Running (respectively Done) at every entry
named exactly `n`, the previous status at every other entry, and is the old list
when no entry is named `n`. -/
theorem step_start_done_only_set_status (env : Env) (m : mainMenuModel) (n : Str) :
    (∃ m1 cmd, Update env m (.processOutputMsg ("STEP_START:".toList ++ n)) = some (m1, cmd) ∧
      OnlyStatusOf n .statusRunning m.steps m1.steps) ∧
    (∃ m1 cmd, Update env m (.processOutputMsg ("STEP_DONE:".toList ++ n)) = some (m1, cmd) ∧
      OnlyStatusOf n .statusDone m.steps m1.steps) := by
  refine ⟨⟨_, _, rfl, ?_⟩, ⟨_, _, rfl, ?_⟩⟩
  · show OnlyStatusOf n .statusRunning m.steps (processLine m.steps ("STEP_START:".toList ++ n))
    rw [processLine_start]
    exact markSteps_onlyStatusOf _ _ _
  · show OnlyStatusOf n .statusDone m.steps (processLine m.steps ("STEP_DONE:".toList ++ n))
    rw [processLine_done]
    exact markSteps_onlyStatusOf _ _ _

/-- C4. A line that starts with none of the three prefixes leaves the whole model as it
was (every field, the step list included); the only effect is the request to read
the next line. -/
theorem unrecognized_line_is_discarded (env : Env) (m : mainMenuModel) (line : Str)
    (h1 : HasPrefix line "ALL_STEPS:".toList = false)
    (h2 : HasPrefix line "STEP_START:".toList = false)
    (h3 : HasPrefix line "STEP_DONE:".toList = false) :
    Update env m (.processOutputMsg line)
      = some (m, .Batch [.streamOutput m.stdoutScanner]) := by
  rw [Update_processOutputMsg, processLine_other _ _ h1 h2 h3]

/-- C4 at the lines `DEBUG: hello` and `all_steps:a`. -/
theorem unrecognized_line_is_discarded_witness :
    (HasPrefix "DEBUG: hello".toList "ALL_STEPS:".toList = false ∧
      HasPrefix "DEBUG: hello".toList "STEP_START:".toList = false ∧
      HasPrefix "DEBUG: hello".toList "STEP_DONE:".toList = false ∧
      Update idleEnv (initialMainMenuModel none) (.processOutputMsg "DEBUG: hello".toList)
        = some (initialMainMenuModel none, .Batch [.streamOutput none])) ∧
    (HasPrefix "all_steps:a".toList "ALL_STEPS:".toList = false ∧
      Update idleEnv (initialMainMenuModel none) (.processOutputMsg "all_steps:a".toList)
        = some (initialMainMenuModel none, .Batch [.streamOutput none])) :=
  ⟨⟨by decide, by decide, by decide,
      unrecognized_line_is_discarded idleEnv (initialMainMenuModel none) _
        (by decide) (by decide) (by decide)⟩,
    ⟨by decide,
      unrecognized_line_is_discarded idleEnv (initialMainMenuModel none) _
        (by decide) (by decide) (by decide)⟩⟩

/-! ## Sequences of output lines -/

theorem TrimPrefix_eq_iff (l pre n : Str) (h : HasPrefix l pre = true) :
    TrimPrefix l pre = n ↔ l = pre ++ n := by
  have hp : pre <+: l := List.isPrefixOf_iff_prefix.1 h
  obtain ⟨t, rfl⟩ := hp
  rw [TrimPrefix_append]
  constructor
  · intro e; rw [e]
  · intro e; exact List.append_cancel_left e

theorem ne_append_of_not_HasPrefix (l pre n : Str) (h : HasPrefix l pre = false) :
    l ≠ pre ++ n := by
  intro e
  rw [e, HasPrefix_append] at h
  exact Bool.noConfusion h

theorem processLine_eq_map (steps : List workflowStep) (l : Str)
    (h : HasPrefix l "ALL_STEPS:".toList = false) :
    processLine steps l
      = steps.map (fun s => { s with status := lineStatus l s.name s.status }) := by
  unfold processLine
  rw [h, if_neg (by simp)]
  by_cases hs : HasPrefix l "STEP_START:".toList = true
  · rw [if_pos hs, markSteps_eq_map]
    apply List.map_congr_left
    intro s _
    have := TrimPrefix_eq_iff l _ s.name hs
    by_cases hn : s.name = TrimPrefix l "STEP_START:".toList
    · have hl : l = startLine s.name := this.1 hn.symm
      rw [if_pos hn]
      simp only [lineStatus, if_pos hl]
    · have hl : ¬ l = startLine s.name := fun e => hn (this.2 e).symm
      have hd : ¬ l = doneLine s.name := by
        intro e
        rw [e] at hs
        simp [doneLine, HasPrefix, List.isPrefixOf] at hs
      rw [if_neg hn]
      simp only [lineStatus, if_neg hl, if_neg hd]
  · have hs1 : HasPrefix l "STEP_START:".toList = false := by simpa using hs
    have hl : ∀ n, ¬ l = startLine n := fun n => ne_append_of_not_HasPrefix l _ n hs1
    rw [if_neg hs]
    by_cases hd : HasPrefix l "STEP_DONE:".toList = true
    · rw [if_pos hd, markSteps_eq_map]
      apply List.map_congr_left
      intro s _
      have := TrimPrefix_eq_iff l _ s.name hd
      by_cases hn : s.name = TrimPrefix l "STEP_DONE:".toList
      · have hl1 : l = doneLine s.name := this.1 hn.symm
        rw [if_pos hn]
        simp only [lineStatus, if_neg (hl _), if_pos hl1]
      · have hl1 : ¬ l = doneLine s.name := fun e => hn (this.2 e).symm
        rw [if_neg hn]
        simp only [lineStatus, if_neg (hl _), if_neg hl1]
    · have hd1 : HasPrefix l "STEP_DONE:".toList = false := by simpa using hd
      have hl1 : ∀ n, ¬ l = doneLine n := fun n => ne_append_of_not_HasPrefix l _ n hd1
      rw [if_neg hd]
      conv_lhs => rw [← List.map_id steps]
      apply List.map_congr_left
      intro s _
      simp only [lineStatus, if_neg (hl _), if_neg (hl1 _), id]

theorem lastStatus_cons (l : Str) (rest : List Str) (n : Str) (st : stepStatus) :
    (match ((l :: rest).filter
        (fun l => decide (l = startLine n) || decide (l = doneLine n))).getLast? with
      | none => st
      | some l => if l = startLine n then stepStatus.statusRunning else .statusDone)
    = (match (rest.filter
        (fun l => decide (l = startLine n) || decide (l = doneLine n))).getLast? with
      | none => lineStatus l n st
      | some l => if l = startLine n then stepStatus.statusRunning else .statusDone) := by
  by_cases h1 : l = startLine n
  · rw [List.filter_cons_of_pos (by simp [h1]), List.getLast?_cons]
    cases hr : (rest.filter
        (fun l => decide (l = startLine n) || decide (l = doneLine n))).getLast? with
    | none => simp [lineStatus, h1]
    | some x => simp
  · by_cases h2 : l = doneLine n
    · rw [List.filter_cons_of_pos (by simp [h2]), List.getLast?_cons]
      cases hr : (rest.filter
          (fun l => decide (l = startLine n) || decide (l = doneLine n))).getLast? with
      | none => simp [lineStatus, h1, h2]
      | some x => simp
    · rw [List.filter_cons_of_neg (by simp [h1, h2])]
      simp [lineStatus, h1, h2]

theorem foldl_processLine (lines : List Str)
    (h : ∀ l ∈ lines, HasPrefix l "ALL_STEPS:".toList = false) (steps : List workflowStep) :
    lines.foldl processLine steps
      = steps.map (fun s =>
          { s with status :=
              match (lines.filter
                (fun l => decide (l = startLine s.name) || decide (l = doneLine s.name))).getLast? with
              | none => s.status
              | some l => if l = startLine s.name then .statusRunning else .statusDone }) := by
  induction lines generalizing steps with
  | nil => simp
  | cons l rest ih =>
    rw [List.foldl_cons, ih (fun x hx => h x (List.mem_cons_of_mem _ hx)),
      processLine_eq_map _ _ (h l (List.mem_cons_self _ _)), List.map_map]
    apply List.map_congr_left
    intro s _
    simp only [Function.comp]
    rw [lastStatus_cons]

theorem runLines_steps (env : Env) (m : mainMenuModel) (lines : List Str) :
    (runLines env m lines).map (fun m1 => m1.steps) = some (lines.foldl processLine m.steps) := by
  induction lines generalizing m with
  | nil => rfl
  | cons l rest ih =>
    rw [runLines, Update_processOutputMsg]
    exact ih _

/-- C3, as the code has it. For every sequence of output lines, processed in order from
any model (the initial one included), whose most recent `ALL_STEPS:` line carries
the payload `p` and is followed by the lines `later`: the run returns and the step
list is the names of `p` in order, each with the status decided by the last
`STEP_START:` / `STEP_DONE:` message naming it among `later` (Done for a
`STEP_DONE:`, Running for a `STEP_START:`, Pending when there is none). -/
theorem final_status_is_last_message (env : Env) (m : mainMenuModel)
    (earlier later : List Str) (p : Str)
    (h : ∀ l ∈ later, HasPrefix l "ALL_STEPS:".toList = false) :
    (runLines env m (earlier ++ ("ALL_STEPS:".toList ++ p) :: later)).map (fun m1 => m1.steps)
      = some ((Split ',' p).map (fun n => { name := n, status := lastStatus later n })) := by
  rw [runLines_steps, List.foldl_append, List.foldl_cons, processLine_all,
    foldl_processLine later h, List.map_map]
  rfl

/-- C3 at the example of the specification: `ALL_STEPS:scan,analyze,report`,
`STEP_START:scan`, `STEP_DONE:scan`, `STEP_START:analyze` give
`[{scan,Done}, {analyze,Running}, {report,Pending}]`. -/
theorem final_status_is_last_message_witness :
    (∀ l ∈ ["STEP_START:scan".toList, "STEP_DONE:scan".toList, "STEP_START:analyze".toList],
      HasPrefix l "ALL_STEPS:".toList = false) ∧
    (runLines idleEnv (initialMainMenuModel none)
        ["ALL_STEPS:scan,analyze,report".toList, "STEP_START:scan".toList,
          "STEP_DONE:scan".toList, "STEP_START:analyze".toList]).map (fun m1 => m1.steps)
      = some
          [{ name := "scan".toList, status := .statusDone },
            { name := "analyze".toList, status := .statusRunning },
            { name := "report".toList, status := .statusPending }] :=
  ⟨by decide,
    (final_status_is_last_message idleEnv (initialMainMenuModel none) []
      ["STEP_START:scan".toList, "STEP_DONE:scan".toList, "STEP_START:analyze".toList]
      "scan,analyze,report".toList (by decide)).trans (by decide)⟩

/-- C3 as stated fails. After `ALL_STEPS:a`, `STEP_DONE:a` the step `a` is Done although
no `STEP_START` message was processed at all; after `ALL_STEPS:a`, `STEP_START:a`,
`STEP_DONE:a`, `STEP_START:a` the step `a` is Running although a `STEP_DONE`
naming it was processed after a `STEP_START` naming it. -/
theorem done_iff_done_after_start_fails :
    ((runLines idleEnv (initialMainMenuModel none)
          ["ALL_STEPS:a".toList, "STEP_DONE:a".toList]).map (fun m1 => m1.steps)
        = some [{ name := "a".toList, status := .statusDone }] ∧
      ¬ DoneAfterStart ["ALL_STEPS:a".toList, "STEP_DONE:a".toList] "a".toList) ∧
    ((runLines idleEnv (initialMainMenuModel none)
          ["ALL_STEPS:a".toList, "STEP_START:a".toList, "STEP_DONE:a".toList,
            "STEP_START:a".toList]).map (fun m1 => m1.steps)
        = some [{ name := "a".toList, status := .statusRunning }] ∧
      DoneAfterStart
        ["ALL_STEPS:a".toList, "STEP_START:a".toList, "STEP_DONE:a".toList,
          "STEP_START:a".toList] "a".toList) := by
  refine ⟨⟨by decide, ?_⟩, ⟨by decide, ?_⟩⟩
  · rintro ⟨before, after, h, -⟩
    have hmem : startLine "a".toList ∈ ["ALL_STEPS:a".toList, "STEP_DONE:a".toList] := by
      rw [h]; simp
    revert hmem
    decide
  · exact ⟨["ALL_STEPS:a".toList], ["STEP_DONE:a".toList, "STEP_START:a".toList],
      by decide, by decide⟩

/-! ## The navigation state machine -/

theorem loadWorkflows_length_pos (env : Env) : 0 < (loadWorkflows env).length := by
  unfold loadWorkflows
  split
  · simp
  · simp only
    split
    · simp
    · omega

theorem index_of_inRange (m : mainMenuModel) (h : CursorInRange m) :
    ∃ choice, index m.choices m.cursor = some choice := by
  obtain ⟨h0, h1⟩ := h
  unfold index
  rw [if_pos h0]
  have hlt : m.cursor.toNat < m.choices.length := by omega
  exact ⟨m.choices[m.cursor.toNat], by simp [List.getElem?_eq_getElem hlt]⟩

theorem updateMenus_inRange (env : Env) (m m1 : mainMenuModel) (msg : KeyMsg) (cmd : CmdOut)
    (hm : CursorInRange m) (h : updateMenus env m msg = some (m1, cmd)) :
    CursorInRange m1 := by
  obtain ⟨h0, h1⟩ := hm
  unfold updateMenus at h
  split at h
  · split at h <;> simp at h <;> obtain ⟨rfl, -⟩ := h <;> unfold CursorInRange <;>
      (try dsimp only) <;> omega
  · split at h
    · split at h <;> simp at h <;> obtain ⟨rfl, -⟩ := h <;> unfold CursorInRange <;>
      (try dsimp only) <;> omega
    · split at h
      · split at h
        · split at h
          · simp at h
            obtain ⟨rfl, -⟩ := h
            have := loadWorkflows_length_pos env
            unfold CursorInRange
            dsimp only
            omega
          · simp at h; obtain ⟨rfl, -⟩ := h; exact ⟨h0, h1⟩
        · split at h
          · simp at h
          · simp at h; obtain ⟨rfl, -⟩ := h; exact ⟨h0, h1⟩
      · simp at h; obtain ⟨rfl, -⟩ := h; exact ⟨h0, h1⟩

theorem updateDirectoryInput_inRange (env : Env) (m m1 : mainMenuModel) (msg : KeyMsg)
    (cmd : CmdOut) (hm : CursorInRange m)
    (h : updateDirectoryInput env m msg = some (m1, cmd)) :
    CursorInRange m1 := by
  unfold updateDirectoryInput at h
  split at h
  · simp only at h
    split at h
    · split at h
      · simp at h
      · simp at h; obtain ⟨rfl, -⟩ := h; exact hm
    · simp at h; obtain ⟨rfl, -⟩ := h; exact hm
  · simp at h; obtain ⟨rfl, -⟩ := h; exact hm

theorem Update_inRange (env : Env) (m m1 : mainMenuModel) (msg : Msg) (cmd : CmdOut)
    (hm : CursorInRange m) (h : Update env m msg = some (m1, cmd)) :
    CursorInRange m1 := by
  cases msg with
  | WindowSizeMsg w ht =>
    simp only [Update] at h
    split at h <;> simp at h <;> obtain ⟨rfl, -⟩ := h <;> exact hm
  | KeyMsg k =>
    simp only [Update] at h
    split at h
    · simp at h; obtain ⟨rfl, -⟩ := h; exact hm
    · split at h
      · exact updateMenus_inRange env m m1 k cmd hm h
      · exact updateMenus_inRange env m m1 k cmd hm h
      · exact updateDirectoryInput_inRange env m m1 k cmd hm h
      · simp at h; obtain ⟨rfl, -⟩ := h; exact hm
      · simp at h; obtain ⟨rfl, -⟩ := h; exact hm
  | TickMsg t =>
    simp only [Update] at h
    split at h <;> simp at h <;> obtain ⟨rfl, -⟩ := h <;> exact hm
  | processOutputMsg line =>
    rw [Update_processOutputMsg] at h
    simp at h; obtain ⟨rfl, -⟩ := h; exact hm
  | processFinishedMsg e p =>
    simp only [Update] at h
    split at h
    · split at h
      · simp at h; obtain ⟨rfl, -⟩ := h; exact hm
      · split at h
        · simp at h
        · simp at h; obtain ⟨rfl, -⟩ := h; exact hm
    · simp at h; obtain ⟨rfl, -⟩ := h; exact hm
  | other t =>
    simp only [Update] at h
    simp at h; obtain ⟨rfl, -⟩ := h; exact hm

theorem Reachable_inRange (m : mainMenuModel) (h : Reachable m) : CursorInRange m := by
  induction h with
  | init cfg => exact ⟨by simp [initialMainMenuModel], by simp [initialMainMenuModel]⟩
  | step env msg cmd _ hu ih => exact Update_inRange env _ _ msg cmd ih hu

theorem updateMenus_returns (env : Env) (m : mainMenuModel) (msg : KeyMsg)
    (hm : CursorInRange m) : ∃ m1 cmd, updateMenus env m msg = some (m1, cmd) := by
  obtain ⟨choice, hc⟩ := index_of_inRange m hm
  unfold updateMenus
  rw [hc]
  split
  · exact ⟨_, _, rfl⟩
  · split
    · exact ⟨_, _, rfl⟩
    · split
      · split
        · split <;> exact ⟨_, _, rfl⟩
        · exact ⟨_, _, rfl⟩
      · exact ⟨_, _, rfl⟩

/-- C6. In every model reachable from `initialMainMenuModel` through `Update`, whatever
the collaborators (the workflow catalog included) answer at each message, the
cursor satisfies `0 ≤ cursor ≤ len(choices) - 1`, so `choices[cursor]` is in
range; `updateMenus` returns for every key and keeps the cursor in range; up at
index 0 and down at the last index leave the model as it is; and the list
`loadWorkflows` puts in place when the workflow list is entered is never empty. -/
theorem cursor_always_in_range (m : mainMenuModel) (h : Reachable m) :
    CursorInRange m ∧
    (∃ choice, index m.choices m.cursor = some choice) ∧
    (∀ env msg, ∃ m1 cmd, updateMenus env m msg = some (m1, cmd) ∧ CursorInRange m1) ∧
    (∀ env raw, m.cursor = 0 →
      updateMenus env m { name := "up".toList, raw := raw } = some (m, .one .nil)) ∧
    (∀ env raw, m.cursor = (m.choices.length : Int) - 1 →
      updateMenus env m { name := "down".toList, raw := raw } = some (m, .one .nil)) ∧
    (∀ env raw, m.state = .stateMainMenu → m.cursor = 0 →
      updateMenus env m { name := "enter".toList, raw := raw }
        = some ({ m with
            state := .stateWorkflowSelection
            choices := loadWorkflows env
            cursor := 0 }, .one .nil) ∧
      loadWorkflows env ≠ []) := by
  have hm := Reachable_inRange m h
  refine ⟨hm, index_of_inRange m hm, ?_, ?_, ?_, ?_⟩
  · intro env msg
    obtain ⟨m1, cmd, h1⟩ := updateMenus_returns env m msg hm
    exact ⟨m1, cmd, h1, updateMenus_inRange env m m1 msg cmd hm h1⟩
  · intro env raw hc
    unfold updateMenus
    simp [hc]
  · intro env raw hc
    unfold updateMenus
    have h1 : ¬ ("down".toList = "up".toList ∨ "down".toList = "k".toList) := by decide
    simp only [if_neg h1]
    simp [hc]
  · intro env raw hs hc
    refine ⟨?_, ?_⟩
    · unfold updateMenus
      have h1 : ¬ ("enter".toList = "up".toList ∨ "enter".toList = "k".toList) := by decide
      have h2 : ¬ ("enter".toList = "down".toList ∨ "enter".toList = "j".toList) := by decide
      simp only [if_neg h1, if_neg h2]
      simp [hs, hc]
    · have := loadWorkflows_length_pos env
      intro e
      rw [e] at this
      simp at this

/-- C6 at the model reached from the initial one by the down key: the cursor is 1 of a
list of two entries. -/
theorem cursor_always_in_range_witness :
    Reachable { initialMainMenuModel none with cursor := 1 } ∧
    CursorInRange { initialMainMenuModel none with cursor := 1 } :=
  have hr : Reachable { initialMainMenuModel none with cursor := 1 } :=
    Reachable.step idleEnv (.KeyMsg { name := "down".toList, raw := 0 }) (.one .nil)
      (Reachable.init none) (by decide)
  ⟨hr, (cursor_always_in_range _ hr).1⟩

/-! ## Result resolution -/

theorem Update_finished_err (env : Env) (m : mainMenuModel) (e : GoError) (p : Str) :
    Update env m (.processFinishedMsg (some e) p)
      = some ({ m with state := .stateResults, err := some e }, .Batch []) := by
  simp [Update]

theorem Update_finished_read_error (env : Env) (m : mainMenuModel) (p : Str) (e : GoError)
    (hp : p ≠ []) (hr : env.readFile p = .error e) :
    Update env m (.processFinishedMsg none p)
      = some ({ m with state := .stateResults, err := some e }, .Batch []) := by
  simp [Update, hp, hr]

theorem Update_finished_rendered (env : Env) (m : mainMenuModel) (p content str : Str)
    (e : Option GoError) (hp : p ≠ []) (hr : env.readFile p = .ok content)
    (hs : renderReport env m.viewport.Width content = some (str, e)) :
    Update env m (.processFinishedMsg none p)
      = some ({ m with
          state := .stateResults
          err := none
          viewport := m.viewport.SetContent str }, .Batch []) := by
  simp [Update, hp, hr, hs]

theorem SetContent_lines (v : Viewport) (s : Str) :
    (v.SetContent s).lines = Split '\n' (ReplaceCRLF s) := by
  unfold Viewport.SetContent
  simp only
  split
  · rfl
  · rfl

theorem SetContent_geometry (v : Viewport) (s : Str) :
    (v.SetContent s).Width = v.Width ∧ (v.SetContent s).Height = v.Height ∧
      (v.SetContent s).YPosition = v.YPosition := by
  unfold Viewport.SetContent
  simp only
  split
  · exact ⟨rfl, rfl, rfl⟩
  · exact ⟨rfl, rfl, rfl⟩

theorem SetContent_content (v : Viewport) (s : Str) :
    (v.SetContent s).content = ReplaceCRLF s := by
  rw [Viewport.content, SetContent_lines, intercalate_Split]

theorem ReplaceCRLF_of_no_CR (s : Str) (h : '\r' ∉ s) : ReplaceCRLF s = s := by
  induction s with
  | nil => rfl
  | cons c rest ih =>
    have hc : ¬ c = '\r' := fun e => h (by simp [e])
    have hrest : '\r' ∉ rest := fun e => h (List.mem_cons_of_mem _ e)
    cases rest with
    | nil => rfl
    | cons d rest2 =>
      rw [ReplaceCRLF, if_neg (fun hcd => hc hcd.1), ih hrest]

theorem Update_finished_shows (env : Env) (m : mainMenuModel) (p content str : Str)
    (e : Option GoError) (hp : p ≠ []) (hr : env.readFile p = .ok content)
    (hs : renderReport env m.viewport.Width content = some (str, e)) :
    ∃ m1, Update env m (.processFinishedMsg none p) = some (m1, .Batch []) ∧
      m1.state = .stateResults ∧ m1.err = none ∧
      m1.viewport.lines = Split '\n' (ReplaceCRLF str) ∧
      m1.viewport.content = ReplaceCRLF str ∧
      ('\r' ∉ str → m1.viewport.content = str) ∧
      m1.viewport.Width = m.viewport.Width ∧ m1.viewport.Height = m.viewport.Height ∧
      m1 = { m with
        state := .stateResults
        err := none
        viewport := m.viewport.SetContent str } := by
  refine ⟨_, Update_finished_rendered env m p content str e hp hr hs, rfl, rfl,
    SetContent_lines _ _, SetContent_content _ _, ?_, (SetContent_geometry _ _).1,
    (SetContent_geometry _ _).2.1, rfl⟩
  intro hcr
  show (m.viewport.SetContent str).content = str
  rw [SetContent_content, ReplaceCRLF_of_no_CR str hcr]

/-- C8. A completion message without error and with a report path. When the read
succeeds and the render call returns the text `str` for the artifact content
(it always returns when the renderer is not nil, with `str` the text `Render`
gives for that content), `Update` returns a model on Results with no error whose
viewport holds `str`: its lines are the lines of `str` with the line endings
normalised, its content is that text, equal to `str` itself when `str` has no
carriage return. When the read fails with `e`, `Update` returns the model on
Results with error `e`. A completion message with an error `e` gives the model on
Results with error `e` and the viewport untouched, whatever the collaborators
(the file read included) would answer. -/
theorem completion_resolution (env : Env) (m : mainMenuModel) :
    (∀ p content str e, p ≠ [] → env.readFile p = .ok content →
      renderReport env m.viewport.Width content = some (str, e) →
      ∃ m1, Update env m (.processFinishedMsg none p) = some (m1, .Batch []) ∧
        m1.state = .stateResults ∧ m1.err = none ∧
        m1.viewport.lines = Split '\n' (ReplaceCRLF str) ∧
        m1.viewport.content = ReplaceCRLF str ∧
        ('\r' ∉ str → m1.viewport.content = str) ∧
        m1.viewport.Width = m.viewport.Width ∧ m1.viewport.Height = m.viewport.Height ∧
        m1 = { m with
          state := .stateResults
          err := none
          viewport := m.viewport.SetContent str }) ∧
    (∀ p content render, p ≠ [] → env.readFile p = .ok content →
      (env.newTermRenderer m.viewport.Width).1 = some render →
      ∃ m1, Update env m (.processFinishedMsg none p) = some (m1, .Batch []) ∧
        m1.state = .stateResults ∧ m1.err = none ∧
        m1.viewport.lines = Split '\n' (ReplaceCRLF (render content).1) ∧
        m1.viewport.content = ReplaceCRLF (render content).1) ∧
    (∀ p e, p ≠ [] → env.readFile p = .error e →
      Update env m (.processFinishedMsg none p)
        = some ({ m with state := .stateResults, err := some e }, .Batch [])) ∧
    (∀ e p (env1 : Env),
      Update env m (.processFinishedMsg (some e) p)
        = some ({ m with state := .stateResults, err := some e }, .Batch []) ∧
      Update env1 m (.processFinishedMsg (some e) p)
        = Update env m (.processFinishedMsg (some e) p)) := by
  refine ⟨?_, ?_, ?_, ?_⟩
  · intro p content str e hp hr hs
    exact Update_finished_shows env m p content str e hp hr hs
  · intro p content render hp hr hn
    have hs : renderReport env m.viewport.Width content
        = some ((render content).1, (render content).2) := by
      simp [renderReport, hn]
    obtain ⟨m1, h1, h2, h3, h4, h5, -⟩ :=
      Update_finished_shows env m p content _ _ hp hr hs
    exact ⟨m1, h1, h2, h3, h4, h5⟩
  · intro p e hp hr
    exact Update_finished_read_error env m p e hp hr
  · intro e p env1
    rw [Update_finished_err, Update_finished_err]
    exact ⟨rfl, rfl⟩

/-- C8 at a run whose report `logs/report_file.txt` holds `# Report` and is rendered
with a line break appended (the viewport, empty before, holds the two lines
`# Report` and the empty one), and at a run whose report is missing. -/
theorem completion_resolution_witness :
    (initialMainMenuModel none).viewport.lines = [] ∧
    (Update reportEnv (initialMainMenuModel none)
        (.processFinishedMsg none "logs/report_file.txt".toList)).map
          (fun r => (r.1.state, r.1.err, r.1.viewport.lines, r.1.viewport.content))
      = some (.stateResults, none, ["# Report".toList, []], "# Report\n".toList) ∧
    Update idleEnv (initialMainMenuModel none)
        (.processFinishedMsg none "logs/report_file.txt".toList)
      = some ({ initialMainMenuModel none with
          state := .stateResults
          err := some (.external 2 "no such file or directory".toList) }, .Batch []) := by
  obtain ⟨m1, h1, h2, h3, h4, h5, -⟩ :=
    (completion_resolution reportEnv (initialMainMenuModel none)).1
      "logs/report_file.txt".toList "# Report".toList "# Report\n".toList none
      (by decide) rfl (by decide)
  refine ⟨rfl, ?_, ?_⟩
  · rw [h1, Option.map_some', h2, h3, h4, h5]
    decide
  · exact (completion_resolution idleEnv (initialMainMenuModel none)).2.2.1
      "logs/report_file.txt".toList (.external 2 "no such file or directory".toList)
      (by decide) rfl

/-- C10, as the code has it. When the run succeeded, the report was read, the renderer
was built and its `Render` returns an error together with the text `str`, the
handler returns a model on Results with no error whose viewport holds `str`, the
text `Render` returned: its lines are the lines of `str` with the line endings
normalised and its content is that text. -/
theorem render_error_shows_render_output (env : Env) (m : mainMenuModel)
    (p content str : Str) (render : Str → RenderResult) (e : GoError)
    (hp : p ≠ []) (hr : env.readFile p = .ok content)
    (hn : (env.newTermRenderer m.viewport.Width).1 = some render)
    (hs : render content = (str, some e)) :
    ∃ m1, Update env m (.processFinishedMsg none p) = some (m1, .Batch []) ∧
      m1.state = .stateResults ∧ m1.err = none ∧
      m1.viewport.lines = Split '\n' (ReplaceCRLF str) ∧
      m1.viewport.content = ReplaceCRLF str ∧
      ('\r' ∉ str → m1.viewport.content = str) := by
  have hrr : renderReport env m.viewport.Width content = some (str, some e) := by
    simp [renderReport, hn, hs]
  obtain ⟨m1, h1, h2, h3, h4, h5, h6, -⟩ :=
    Update_finished_shows env m p content str (some e) hp hr hrr
  exact ⟨m1, h1, h2, h3, h4, h5, h6⟩

/-- C10 at a report `# Report` and a renderer whose `Render` returns the text `# Rep`
and an error: the viewport, empty before, holds the one line `# Rep`. -/
theorem render_error_shows_render_output_witness :
    ("logs/report_file.txt".toList ≠ [] ∧
      brokenRenderEnv.readFile "logs/report_file.txt".toList = .ok "# Report".toList ∧
      (initialMainMenuModel none).viewport.lines = []) ∧
    (Update brokenRenderEnv (initialMainMenuModel none)
        (.processFinishedMsg none "logs/report_file.txt".toList)).map
          (fun r => (r.1.state, r.1.err, r.1.viewport.lines, r.1.viewport.content))
      = some (.stateResults, none, ["# Rep".toList], "# Rep".toList) := by
  obtain ⟨m1, h1, h2, h3, h4, h5, -⟩ :=
    render_error_shows_render_output brokenRenderEnv (initialMainMenuModel none)
      "logs/report_file.txt".toList "# Report".toList "# Rep".toList
      (fun _ => ("# Rep".toList, some (.external 7 "render failed".toList)))
      (.external 7 "render failed".toList) (by decide) rfl rfl rfl
  refine ⟨⟨by decide, rfl, rfl⟩, ?_⟩
  rw [h1, Option.map_some', h2, h3, h4, h5]
  decide

/-- C10 as stated fails. The report holds `# Report` and `Render` fails, returning the
text `# Rep` and an error: the handler returns, and the viewport holds `# Rep`,
not the raw report text `# Report`; it is not the viewport that `SetContent` of
the raw text gives. -/
theorem render_error_does_not_show_raw_text :
    brokenRenderEnv.readFile "logs/report_file.txt".toList = .ok "# Report".toList ∧
    ((brokenRenderEnv.newTermRenderer 0).1.map (fun render => render "# Report".toList))
      = some ("# Rep".toList, some (.external 7 "render failed".toList)) ∧
    (Update brokenRenderEnv (initialMainMenuModel none)
        (.processFinishedMsg none "logs/report_file.txt".toList)).map
          (fun r => r.1.viewport.content)
      = some "# Rep".toList ∧
    (Update brokenRenderEnv (initialMainMenuModel none)
        (.processFinishedMsg none "logs/report_file.txt".toList)).map
          (fun r => r.1.viewport.content)
      ≠ some "# Report".toList ∧
    (Update brokenRenderEnv (initialMainMenuModel none)
        (.processFinishedMsg none "logs/report_file.txt".toList)).map
          (fun r => r.1.viewport)
      ≠ some ((initialMainMenuModel none).viewport.SetContent "# Report".toList) := by
  refine ⟨rfl, by decide, by decide, by decide, by decide⟩

/-- C9 on the code. With an empty workflow directory `loadWorkflows` gives the
placeholder alone, the enter key on the main menu opens the workflow selection
over it, and the enter key there moves on to the directory input and records
the placeholder text as the workflow id. -/
theorem placeholder_entry_is_selected :
    loadWorkflows idleEnv = ["No workflows found".toList] ∧
    Update idleEnv (initialMainMenuModel none) (.KeyMsg { name := "enter".toList, raw := 0 })
      = some (emptyCatalogModel, .one .nil) ∧
    updateMenus idleEnv emptyCatalogModel { name := "enter".toList, raw := 0 }
      = some ({ emptyCatalogModel with
          state := .stateDirectorySelection
          workflow := "No workflows found".toList }, .one .nil) ∧
    Update idleEnv emptyCatalogModel (.KeyMsg { name := "enter".toList, raw := 0 })
      = some ({ emptyCatalogModel with
          state := .stateDirectorySelection
          workflow := "No workflows found".toList }, .one .nil) := by
  refine ⟨by decide, by decide, by decide, by decide⟩

/-! ## The report path and the completion message -/

theorem Split_cons_sep (sep : Char) (cs : Str) :
    Split sep (sep :: cs) = [] :: Split sep cs := by
  simp [Split]

theorem Split_cons_ne (sep c : Char) (cs x : Str) (xs : List Str) (h : ¬ c = sep)
    (hs : Split sep cs = x :: xs) : Split sep (c :: cs) = (c :: x) :: xs := by
  simp [Split, h, hs]

theorem Split_append_sep (sep : Char) (a b : Str) :
    Split sep (a ++ sep :: b) = Split sep a ++ Split sep b := by
  induction a with
  | nil => simp [Split_cons_sep, Split]
  | cons c cs ih =>
    rw [List.cons_append]
    by_cases h : c = sep
    · subst h
      rw [Split_cons_sep, Split_cons_sep, ih, List.cons_append]
    · cases hs : Split sep cs with
      | nil => exact absurd hs (Split_ne_nil _ _)
      | cons x xs =>
        rw [hs] at ih
        rw [Split_cons_ne sep c _ x (xs ++ Split sep b) h (by rw [ih, List.cons_append]),
          Split_cons_ne sep c cs x xs h hs, List.cons_append]

theorem Split_of_no_sep (sep : Char) (s : Str) (h : sep ∉ s) : Split sep s = [s] := by
  induction s with
  | nil => rfl
  | cons c cs ih =>
    have hc : ¬ c = sep := fun e => h (by simp [e])
    have hcs : sep ∉ cs := fun e => h (List.mem_cons_of_mem _ e)
    unfold Split
    simp only [if_neg hc, ih hcs]

theorem cleanStep_kept (rooted : Bool) (stack : List Str) (el : Str) (hel : '/' ∉ el)
    (h : ∀ x ∈ stack, KeptElement x) : ∀ x ∈ cleanStep rooted stack el, KeptElement x := by
  unfold cleanStep
  split
  · exact h
  · rename_i h1
    have hk : KeptElement el := ⟨fun e => h1 (Or.inl e), fun e => h1 (Or.inr e), hel⟩
    split
    · split
      · split
        · intro x hx
          rcases List.mem_cons.1 hx with rfl | hx
          · exact hk
          · exact h x hx
        · intro x hx
          exact h x (List.mem_cons_of_mem _ hx)
      · split
        · simp
        · intro x hx
          rcases List.mem_cons.1 hx with rfl | hx
          · exact hk
          · simp at hx
    · intro x hx
      rcases List.mem_cons.1 hx with rfl | hx
      · exact hk
      · exact h x hx

theorem foldl_cleanStep_kept (rooted : Bool) (els stack : List Str)
    (hels : ∀ el ∈ els, '/' ∉ el) (h : ∀ x ∈ stack, KeptElement x) :
    ∀ x ∈ els.foldl (cleanStep rooted) stack, KeptElement x := by
  induction els generalizing stack with
  | nil => exact h
  | cons el rest ih =>
    rw [List.foldl_cons]
    exact ih _ (fun x hx => hels x (List.mem_cons_of_mem _ hx))
      (cleanStep_kept rooted stack el (hels el (List.mem_cons_self _ _)) h)

theorem cleanRender_cons (rooted : Bool) (el : Str) (stack : List Str) (h : stack ≠ []) :
    cleanRender rooted (el :: stack) = cleanRender rooted stack ++ '/' :: el := by
  cases stack with
  | nil => exact absurd rfl h
  | cons x xs => rfl

theorem cleanRender_ne (rooted : Bool) (stack : List Str) (h : stack ≠ [])
    (hk : ∀ x ∈ stack, KeptElement x) :
    cleanRender rooted stack ≠ ['.'] ∧ cleanRender rooted stack ≠ ['/'] := by
  cases stack with
  | nil => exact absurd rfl h
  | cons el rest =>
    obtain ⟨h1, h2, h3⟩ := hk el (List.mem_cons_self _ _)
    cases rest with
    | nil =>
      cases rooted with
      | true =>
        simp only [cleanRender, if_true]
        constructor
        · simp
        · simpa using h1
      | false =>
        constructor
        · simpa [cleanRender] using h2
        · intro e
          simp only [cleanRender] at e
          have e1 : el = ['/'] := by simpa using e
          rw [e1] at h3
          simp at h3
    | cons x xs =>
      rw [cleanRender_cons rooted el (x :: xs) (by simp)]
      have hlen : 2 ≤ (cleanRender rooted (x :: xs) ++ '/' :: el).length := by
        have : 0 < el.length := List.length_pos.2 h1
        simp only [List.length_append, List.length_cons]
        omega
      constructor
      · intro e; rw [e] at hlen; simp at hlen
      · intro e; rw [e] at hlen; simp at hlen

theorem Clean_append_element (dir file : Str) (hd : dir ≠ [])
    (h1 : file ≠ []) (h2 : file ≠ ['.']) (h3 : file ≠ ['.', '.']) (h4 : '/' ∉ file) :
    Clean (dir ++ '/' :: file)
      = if Clean dir = ['.'] then file
        else if Clean dir = ['/'] then '/' :: file
        else Clean dir ++ '/' :: file := by
  have hroot : HasPrefix (dir ++ '/' :: file) ['/'] = HasPrefix dir ['/'] := by
    cases dir with
    | nil => exact absurd rfl hd
    | cons c cs => simp [HasPrefix, List.isPrefixOf]
  have hne : dir ++ '/' :: file ≠ [] := by simp
  unfold Clean
  rw [if_neg hne, if_neg hd]
  simp only [hroot]
  rw [Split_append_sep, Split_of_no_sep '/' file h4, List.foldl_append]
  simp only [List.foldl_cons, List.foldl_nil]
  generalize hst : (Split '/' dir).foldl (cleanStep (HasPrefix dir ['/'])) [] = stack
  have hk : ∀ x ∈ stack, KeptElement x := by
    rw [← hst]
    exact foldl_cleanStep_kept _ _ _ (Split_no_sep '/' dir) (by simp)
  have hstep : cleanStep (HasPrefix dir ['/']) stack file = file :: stack := by
    unfold cleanStep
    rw [if_neg (by simp [h1, h2]), if_neg h3]
  rw [hstep]
  cases stack with
  | nil =>
    cases HasPrefix dir ['/'] <;> simp [cleanRender]
  | cons x xs =>
    obtain ⟨hn1, hn2⟩ := cleanRender_ne (HasPrefix dir ['/']) (x :: xs) (by simp) hk
    rw [cleanRender_cons _ _ _ (by simp), if_neg hn1, if_neg hn2]

theorem Join_dir_file (dir file : Str)
    (h1 : file ≠ []) (h2 : file ≠ ['.']) (h3 : file ≠ ['.', '.']) (h4 : '/' ∉ file) :
    Join [dir, file]
      = if dir = [] then file
        else if Clean dir = ['.'] then file
        else if Clean dir = ['/'] then '/' :: file
        else Clean dir ++ '/' :: file := by
  by_cases hd : dir = []
  · subst hd
    have : Clean file = file := by
      have hne : file ≠ [] := h1
      unfold Clean
      rw [if_neg hne, Split_of_no_sep '/' file h4]
      have hroot : HasPrefix file ['/'] = false := by
        cases file with
        | nil => exact absurd rfl h1
        | cons c cs =>
          have : c ≠ '/' := fun e => h4 (by simp [e])
          simp [HasPrefix, List.isPrefixOf, Ne.symm this]
      simp only [hroot, List.foldl_cons, List.foldl_nil]
      unfold cleanStep
      rw [if_neg (by simp [h1, h2]), if_neg h3]
      simp [cleanRender]
    simp [Join, h1, List.intercalate, this]
  · rw [if_neg hd]
    have : Join [dir, file] = Clean (dir ++ '/' :: file) := by
      simp [Join, hd, List.intercalate]
    rw [this, Clean_append_element dir file hd h1 h2 h3 h4]

/-- C7. The completion message built by `waitForExit`, for every log directory, every
captured standard error and every exit error. With an exit error and a
non-empty standard error: an error whose text is `python script error:`, two
line breaks and the captured text, so it holds the captured text as a contiguous
substring. With an exit error and an empty standard error: the exit error
itself. Without exit error: no error and the report path
`Join(logDir, report_file.txt)`, whatever the standard error holds; that path is
`report_file.txt` directly under the cleaned log directory (and the bare file
name when the log directory is empty or cleans to the dot). -/
theorem waitForExit_message (logDir errOutput : Str) (exitErr : GoError) :
    (errOutput ≠ [] →
      waitForExit logDir errOutput (some exitErr)
        = .processFinishedMsg
            (some (.errorf ("python script error:\n\n".toList ++ errOutput))) [] ∧
      errOutput <:+: (GoError.errorf ("python script error:\n\n".toList ++ errOutput)).Error) ∧
    waitForExit logDir [] (some exitErr) = .processFinishedMsg (some exitErr) [] ∧
    waitForExit logDir errOutput none
      = .processFinishedMsg none (Join [logDir, "report_file.txt".toList]) ∧
    Join [logDir, "report_file.txt".toList]
      = (if logDir = [] then "report_file.txt".toList
        else if Clean logDir = ['.'] then "report_file.txt".toList
        else if Clean logDir = ['/'] then '/' :: "report_file.txt".toList
        else Clean logDir ++ '/' :: "report_file.txt".toList) := by
  refine ⟨?_, rfl, rfl, ?_⟩
  · intro h
    have hlen : errOutput.length > 0 := List.length_pos.2 h
    refine ⟨?_, ?_⟩
    · simp only [waitForExit, if_pos hlen]
    · exact ⟨"python script error:\n\n".toList, [], by simp [GoError.Error]⟩
  · exact Join_dir_file logDir _ (by decide) (by decide) (by decide) (by decide)

/-- C7 at the standard error `permission denied` with exit status 1, and at a clean
exit with the log directory `/tmp/logs/run1`. -/
theorem waitForExit_message_witness :
    "permission denied".toList ≠ [] ∧
    waitForExit "/tmp/logs/run1".toList "permission denied".toList
        (some (.external 1 "exit status 1".toList))
      = .processFinishedMsg
          (some (.errorf "python script error:\n\npermission denied".toList)) [] ∧
    "permission denied".toList
      <:+: (GoError.errorf "python script error:\n\npermission denied".toList).Error ∧
    waitForExit "/tmp/logs/run1".toList "permission denied".toList none
      = .processFinishedMsg none "/tmp/logs/run1/report_file.txt".toList :=
  have h := waitForExit_message "/tmp/logs/run1".toList "permission denied".toList
    (.external 1 "exit status 1".toList)
  ⟨by decide, (h.1 (by decide)).1, (h.1 (by decide)).2, h.2.2.1.trans (by decide)⟩

end AiSafeOps
